import Mathlib

/-!
Verification of the file-grouping and batch-report-generation logic of
`qwen_report.py` (LLM-Blade repository).  The script scans an RGB and a
thermal image directory, groups image files by a turbine-blade identifier
extracted from the filename, builds a multimodal prompt per group, invokes
an external vision-language model, and renders the reports to one HTML
document.  The external model, the markdown converter and the filesystem
are modelled as explicit function parameters; everything else is a direct
shallow embedding of the Python source.
-/

set_option autoImplicit false

namespace QwenReport

/-- One group of files for a blade: the value type of the `file_groups`
dictionary `{"rgb": [...], "thermal": [...]}` built by
`group_files_by_turbine_blade`. -/
structure BladeGroup where
  rgb : List String
  thermal : List String
  deriving Repr, DecidableEq

/-- The `file_groups` dictionary: an insertion-ordered association list from
blade identifier to `BladeGroup`, mirroring a Python dict. -/
abbrev FileGroups := List (String × BladeGroup)

/-- The literal prefix of the identifier regular expression
`^(Turbine-\d+_[A-Z])` from line 121 of the source. -/
def turbineTag : List Char := "Turbine-".data

/-- Embedding of `re.compile(r"^(Turbine-\d+_[A-Z])").match(fname)`:
the filename must start with `Turbine-`, then one or more decimal digits,
then an underscore and a single uppercase letter; on success the captured
group (that whole matched prefix of the filename) is returned.  Digits are
modelled as ASCII digits. -/
def matchTurbineId (fname : String) : Option String :=
  let cs := fname.data
  if turbineTag.isPrefixOf cs then
    let rest := cs.drop turbineTag.length
    let digits := rest.takeWhile Char.isDigit
    match rest.drop digits.length with
    | '_' :: c :: _ =>
      if digits ≠ [] ∧ 'A' ≤ c ∧ c ≤ 'Z' then
        some ⟨turbineTag ++ digits ++ ['_', c]⟩
      else none
    | _ => none
  else none

/-- Embedding of `fname.lower().endswith(".jpg") or fname.lower().endswith(".png")`
(lines 130 and 141).  Lower-casing is modelled on ASCII letters, which is
what `Char.toLower` performs. -/
def isImage (fname : String) : Bool :=
  let low := fname.data.map Char.toLower
  ".jpg".data.isSuffixOf low || ".png".data.isSuffixOf low

/-- Does the string start with the path separator `/`? -/
def startsSlash (s : String) : Bool :=
  match s.data with
  | '/' :: _ => true
  | _ => false

/-- Does the string end with the path separator `/`? -/
def endsSlash (s : String) : Bool :=
  match s.data.getLast? with
  | some '/' => true
  | _ => false

/-- Embedding of `os.path.join(d, f)` on POSIX: an absolute second component
replaces the path, otherwise the components are joined, inserting `/` unless
the first component is empty or already ends in `/`. -/
def osPathJoin (d f : String) : String :=
  if startsSlash f then f
  else if d.data = [] ∨ endsSlash d then ⟨d.data ++ f.data⟩
  else ⟨d.data ++ '/' :: f.data⟩

/-- Lexicographic comparison of character lists by code point: `lexLe a b`
is true when `a` precedes `b` or equals it.  This is the order Python uses
to compare strings. -/
def lexLe : List Char → List Char → Bool
  | [], _ => true
  | _ :: _, [] => false
  | x :: xs, y :: ys => if x = y then lexLe xs ys else decide (x < y)

/-- Python string comparison, lifted to `String`. -/
def strLe (a b : String) : Bool := lexLe a.data b.data

/-- Embedding of `sorted(...)` on a list of strings: Python sorts strings
lexicographically by code point.  Since that order is total, antisymmetric
and transitive, any sorting algorithm produces the same list; insertion
sort is used here. -/
def sortStrings (l : List String) : List String :=
  List.insertionSort (fun a b => strLe a b = true) l

/-- The net effect of
`file_groups.setdefault(p, {"rgb": [], "thermal": []})` followed by
`file_groups[p]["rgb"].append(path)` on the ordered dictionary: update the
entry with key `p` in place, or append a fresh entry at the end. -/
def addRgb : FileGroups → String → String → FileGroups
  | [], p, path => [(p, ⟨[path], []⟩)]
  | (k, g) :: rest, p, path =>
    if k = p then (k, { g with rgb := g.rgb ++ [path] }) :: rest
    else (k, g) :: addRgb rest p path

/-- The net effect of `setdefault` followed by an append to the `thermal`
list, symmetric to `addRgb`. -/
def addThermal : FileGroups → String → String → FileGroups
  | [], p, path => [(p, ⟨[], [path]⟩)]
  | (k, g) :: rest, p, path =>
    if k = p then (k, { g with thermal := g.thermal ++ [path] }) :: rest
    else (k, g) :: addThermal rest p path

/-- The RGB loop body of `group_files_by_turbine_blade` (lines 128-135):
for each filename in order, if it has an image extension and the identifier
pattern matches, append the joined path to the `rgb` list of its group. -/
def scanRgb (dir : String) : List String → FileGroups → FileGroups
  | [], gs => gs
  | f :: rest, gs =>
    scanRgb dir rest
      (if isImage f then
        match matchTurbineId f with
        | some p => addRgb gs p (osPathJoin dir f)
        | none => gs
      else gs)

/-- The thermal loop body of `group_files_by_turbine_blade` (lines 139-146),
symmetric to `scanRgb`. -/
def scanThermal (dir : String) : List String → FileGroups → FileGroups
  | [], gs => gs
  | f :: rest, gs =>
    scanThermal dir rest
      (if isImage f then
        match matchTurbineId f with
        | some p => addThermal gs p (osPathJoin dir f)
        | none => gs
      else gs)

/-- The filesystem, modelled as a map from a path to its directory listing:
`fs d = none` means `os.path.isdir(d)` is false, and `fs d = some l` means
`d` is a directory and `os.listdir(d) = l` (unsorted). -/
abbrev FileSystem := String → Option (List String)

/-- Embedding of `group_files_by_turbine_blade(rgb_dir, thermal_dir)`
(lines 110-148): scan the RGB directory if it exists, then the thermal
directory if it exists, each in sorted listing order, into one ordered
dictionary. -/
def group_files_by_turbine_blade (fs : FileSystem) (rgb_dir thermal_dir : String) :
    FileGroups :=
  let g1 :=
    match fs rgb_dir with
    | some listing => scanRgb rgb_dir (sortStrings listing) []
    | none => []
  match fs thermal_dir with
  | some listing => scanThermal thermal_dir (sortStrings listing) g1
  | none => g1

/-- The keys of the ordered dictionary, in insertion order. -/
def keys (gs : FileGroups) : List String := gs.map Prod.fst

/-- Dictionary lookup: the value stored at key `p`, if any. -/
def lookupG (p : String) : FileGroups → Option BladeGroup
  | [] => none
  | (k, g) :: rest => if k = p then some g else lookupG p rest

/-- The `rgb` list stored under key `p` (empty if the key is absent). -/
def rgbOf (gs : FileGroups) (p : String) : List String :=
  match lookupG p gs with
  | some g => g.rgb
  | none => []

/-- The `thermal` list stored under key `p` (empty if the key is absent). -/
def thermalOf (gs : FileGroups) (p : String) : List String :=
  match lookupG p gs with
  | some g => g.thermal
  | none => []

/-- The identifiers extracted from a listing, in listing order, keeping
only image files whose name matches the pattern. -/
def listingIds (l : List String) : List String :=
  l.filterMap (fun f => if isImage f then matchTurbineId f else none)

/-- Append to `ks` the members of `xs` not yet present, in first-seen order:
the key order produced by repeated `setdefault` on an ordered dictionary. -/
def addNew (ks : List String) : List String → List String
  | [] => ks
  | x :: rest => addNew (if x ∈ ks then ks else ks ++ [x]) rest

/-- One element of the Qwen user-content list built at lines 48-70: either a
`{"type": "text", "text": s}` item or a `{"type": "image", "image": path}`
item. -/
inductive QwenContent where
  | text (s : String)
  | image (path : String)
  deriving Repr, DecidableEq

/-- The fixed system message of `generate_blade_report` (lines 36-45). -/
def system_prompt : String :=
  "You are a senior expert specializing in wind turbine rotor blade inspection.\n" ++
  "You need to inspect RGB (visual) images and thermal images for the turbine blade.\n" ++
  "Please generate a comprehensive inspection report that includes (but not limited to):\n" ++
  " - Observed anomalies or damage (e.g., cracks, erosion, delamination)\n" ++
  " - Thermal anomalies or hotspots\n" ++
  " - Severity assessment and potential causes\n" ++
  " - Recommended maintenance or repair actions\n" ++
  " - Implications for turbine performance\n"

/-- Embedding of the `user_content` construction of `generate_blade_report`
(lines 48-70): start from the empty list; if the RGB path list is non-empty
(Python truthiness of a list), append one text item and then one image item
per RGB path in order; then do the same for the thermal paths. -/
def user_content (rgb_image_paths thermal_image_paths : List String)
    (turbine_blade_id : String) : List QwenContent :=
  let uc : List QwenContent := []
  let uc :=
    if rgb_image_paths.isEmpty then uc
    else
      (uc ++ [QwenContent.text ("Below are " ++ toString rgb_image_paths.length ++
        " RGB images for " ++ turbine_blade_id ++ ":")]) ++
      rgb_image_paths.map QwenContent.image
  let uc :=
    if thermal_image_paths.isEmpty then uc
    else
      (uc ++ [QwenContent.text ("Below are " ++ toString thermal_image_paths.length ++
        " thermal images for " ++ turbine_blade_id ++ ":")]) ++
      thermal_image_paths.map QwenContent.image
  uc

/-- One chat message of the `messages` list (lines 73-76). -/
inductive QwenMessage where
  | system (s : String)
  | user (content : List QwenContent)
  deriving Repr, DecidableEq

/-- The `messages` list passed to the processor (lines 73-76). -/
def qwen_messages (rgb_image_paths thermal_image_paths : List String)
    (turbine_blade_id : String) : List QwenMessage :=
  [QwenMessage.system system_prompt,
   QwenMessage.user (user_content rgb_image_paths thermal_image_paths turbine_blade_id)]

/-- The external model and processor, modelled as explicit functions on
token-id sequences: `input_ids` is the batch of token sequences the
processor produces for the conversation, `generate m ids n` is
`model.generate(..., max_new_tokens=n)` on that batch, and `batch_decode`
is `processor.batch_decode` of a batch of token sequences. -/
structure QwenModel where
  input_ids : List QwenMessage → List (List Nat)
  generate : List (List Nat) → Nat → List (List Nat)
  batch_decode : List (List Nat) → List String

/-- Embedding of the generation tail of `generate_blade_report`
(lines 97-107): call the model with `max_new_tokens=1024`, drop from each
output sequence a prefix of the length of the corresponding input sequence,
batch-decode, and take element `[0]` (`none` models the `IndexError` when
the decoded batch is empty). -/
def generate_blade_report (M : QwenModel)
    (rgb_image_paths thermal_image_paths : List String)
    (turbine_blade_id : String) : Option String :=
  let ids := M.input_ids (qwen_messages rgb_image_paths thermal_image_paths turbine_blade_id)
  let generated_ids := M.generate ids 1024
  let generated_ids_trimmed :=
    (ids.zip generated_ids).map (fun pr => pr.2.drop pr.1.length)
  let output_text := M.batch_decode generated_ids_trimmed
  output_text.head?

/-- The per-group section string of `process_turbine_data_to_html`
(line 175): `f"<h2>Report for {prefix}</h2>\n<div>{report_html}</div>"`. -/
def section_html (blade_id report_html : String) : String :=
  "<h2>Report for " ++ blade_id ++ "</h2>\n<div>" ++ report_html ++ "</div>"

/-- The loop of `process_turbine_data_to_html` (lines 160-177), with the
report generation (the external model call) and the markdown-to-HTML
conversion passed in as functions: groups whose two lists are both empty
are skipped, every other group contributes one section in iteration
order. -/
def html_sections (report : List String → List String → String → String)
    (md : String → String) : FileGroups → List String
  | [] => []
  | (pfx, g) :: rest =>
    if g.rgb = [] ∧ g.thermal = [] then html_sections report md rest
    else section_html pfx (md (report g.rgb g.thermal pfx)) :: html_sections report md rest

/-- The arguments of the successive `generate_blade_report` calls the loop
of `process_turbine_data_to_html` performs, in call order: `(rgb_files,
thermal_files, prefix)` for every group that is not skipped. -/
def report_calls : FileGroups → List (List String × List String × String)
  | [] => []
  | (pfx, g) :: rest =>
    if g.rgb = [] ∧ g.thermal = [] then report_calls rest
    else (g.rgb, g.thermal, pfx) :: report_calls rest

/-- The fixed HTML boilerplate before the sections (lines 181-186). -/
def html_head : String :=
  "<html>\n  <head>\n    <meta charset=\x27UTF-8\x27>\n    <title>Turbine Inspection Reports</title>\n  </head>\n  <body>\n"

/-- The fixed HTML boilerplate after the sections (lines 188-189). -/
def html_tail : String := "\n  </body>\n</html>"

/-- Embedding of `process_turbine_data_to_html` (lines 151-194), returning
the string written to the output file: group the files, build the skipped
or kept sections, join them with newlines and wrap them in the
boilerplate. -/
def process_turbine_data_to_html (report : List String → List String → String → String)
    (md : String → String) (fs : FileSystem) (rgb_dir thermal_dir : String) : String :=
  let groups := group_files_by_turbine_blade fs rgb_dir thermal_dir
  html_head ++ String.intercalate "\n" (html_sections report md groups) ++ html_tail

/-! ### Dictionary-step lemmas -/

theorem keys_addRgb (gs : FileGroups) (p path : String) :
    keys (addRgb gs p path) = if p ∈ keys gs then keys gs else keys gs ++ [p] := by
  induction gs with
  | nil => simp [addRgb, keys]
  | cons kg rest ih =>
    obtain ⟨k, g⟩ := kg
    by_cases hk : k = p
    · subst hk
      simp [addRgb, keys]
    · have hpk : p ≠ k := fun h => hk h.symm
      simp only [addRgb, if_neg hk, keys, List.map_cons] at ih ⊢
      rw [ih]
      by_cases hp : p ∈ List.map Prod.fst rest
      · simp [List.mem_cons, hp, hpk]
      · simp [List.mem_cons, hp, hpk]

theorem keys_addThermal (gs : FileGroups) (p path : String) :
    keys (addThermal gs p path) = if p ∈ keys gs then keys gs else keys gs ++ [p] := by
  induction gs with
  | nil => simp [addThermal, keys]
  | cons kg rest ih =>
    obtain ⟨k, g⟩ := kg
    by_cases hk : k = p
    · subst hk
      simp [addThermal, keys]
    · have hpk : p ≠ k := fun h => hk h.symm
      simp only [addThermal, if_neg hk, keys, List.map_cons] at ih ⊢
      rw [ih]
      by_cases hp : p ∈ List.map Prod.fst rest
      · simp [List.mem_cons, hp, hpk]
      · simp [List.mem_cons, hp, hpk]

theorem rgbOf_addRgb (gs : FileGroups) (p path q : String) :
    rgbOf (addRgb gs p path) q = if q = p then rgbOf gs q ++ [path] else rgbOf gs q := by
  induction gs with
  | nil =>
    by_cases h : q = p
    · subst h; simp [addRgb, rgbOf, lookupG]
    · simp [addRgb, rgbOf, lookupG, h, Ne.symm h]
  | cons kg rest ih =>
    obtain ⟨k, g⟩ := kg
    by_cases hk : k = p
    · subst hk
      by_cases hq : k = q
      · subst hq; simp [addRgb, rgbOf, lookupG]
      · have hq' : ¬q = k := fun h => hq h.symm
        simp [addRgb, rgbOf, lookupG, hq, hq']
    · by_cases hq : k = q
      · subst hq
        simp [addRgb, rgbOf, lookupG, hk]
      · simp only [addRgb, if_neg hk, rgbOf, lookupG, if_neg hq] at ih ⊢
        exact ih

theorem thermalOf_addRgb (gs : FileGroups) (p path q : String) :
    thermalOf (addRgb gs p path) q = thermalOf gs q := by
  induction gs with
  | nil =>
    by_cases h : p = q <;> simp [addRgb, thermalOf, lookupG, h]
  | cons kg rest ih =>
    obtain ⟨k, g⟩ := kg
    by_cases hk : k = p
    · subst hk
      by_cases hq : k = q <;> simp [addRgb, thermalOf, lookupG, hq]
    · by_cases hq : k = q
      · subst hq; simp [addRgb, thermalOf, lookupG, hk]
      · simp only [addRgb, if_neg hk, thermalOf, lookupG, if_neg hq] at ih ⊢
        exact ih

theorem thermalOf_addThermal (gs : FileGroups) (p path q : String) :
    thermalOf (addThermal gs p path) q =
      if q = p then thermalOf gs q ++ [path] else thermalOf gs q := by
  induction gs with
  | nil =>
    by_cases h : q = p
    · subst h; simp [addThermal, thermalOf, lookupG]
    · simp [addThermal, thermalOf, lookupG, h, Ne.symm h]
  | cons kg rest ih =>
    obtain ⟨k, g⟩ := kg
    by_cases hk : k = p
    · subst hk
      by_cases hq : k = q
      · subst hq; simp [addThermal, thermalOf, lookupG]
      · have hq' : ¬q = k := fun h => hq h.symm
        simp [addThermal, thermalOf, lookupG, hq, hq']
    · by_cases hq : k = q
      · subst hq
        simp [addThermal, thermalOf, lookupG, hk]
      · simp only [addThermal, if_neg hk, thermalOf, lookupG, if_neg hq] at ih ⊢
        exact ih

theorem rgbOf_addThermal (gs : FileGroups) (p path q : String) :
    rgbOf (addThermal gs p path) q = rgbOf gs q := by
  induction gs with
  | nil =>
    by_cases h : p = q <;> simp [addThermal, rgbOf, lookupG, h]
  | cons kg rest ih =>
    obtain ⟨k, g⟩ := kg
    by_cases hk : k = p
    · subst hk
      by_cases hq : k = q <;> simp [addThermal, rgbOf, lookupG, hq]
    · by_cases hq : k = q
      · subst hq; simp [addThermal, rgbOf, lookupG, hk]
      · simp only [addThermal, if_neg hk, rgbOf, lookupG, if_neg hq] at ih ⊢
        exact ih

/-! ### Scan-level characterizations -/

theorem rgbOf_scanRgb (dir : String) (fnames : List String) (gs : FileGroups) (q : String) :
    rgbOf (scanRgb dir fnames gs) q =
      rgbOf gs q ++
        (fnames.filter (fun f => isImage f && (matchTurbineId f == some q))).map
          (osPathJoin dir) := by
  induction fnames generalizing gs with
  | nil => simp [scanRgb]
  | cons f rest ih =>
    by_cases hf : isImage f
    · cases hm : matchTurbineId f with
      | none => simp [scanRgb, hf, hm, ih]
      | some p =>
        by_cases hq : p = q
        · subst hq
          simp [scanRgb, hf, hm, ih, rgbOf_addRgb]
        · have : ¬q = p := fun h => hq h.symm
          simp [scanRgb, hf, hm, ih, rgbOf_addRgb, hq, this]
    · simp [scanRgb, hf, ih]

theorem thermalOf_scanRgb (dir : String) (fnames : List String) (gs : FileGroups)
    (q : String) : thermalOf (scanRgb dir fnames gs) q = thermalOf gs q := by
  induction fnames generalizing gs with
  | nil => simp [scanRgb]
  | cons f rest ih =>
    by_cases hf : isImage f
    · cases hm : matchTurbineId f with
      | none => simp [scanRgb, hf, hm, ih]
      | some p => simp [scanRgb, hf, hm, ih, thermalOf_addRgb]
    · simp [scanRgb, hf, ih]

theorem keys_scanRgb (dir : String) (fnames : List String) (gs : FileGroups) :
    keys (scanRgb dir fnames gs) = addNew (keys gs) (listingIds fnames) := by
  induction fnames generalizing gs with
  | nil => simp [scanRgb, listingIds, addNew]
  | cons f rest ih =>
    by_cases hf : isImage f
    · cases hm : matchTurbineId f with
      | none => simp [scanRgb, hf, hm, ih, listingIds, List.filterMap_cons, addNew]
      | some p =>
        simp only [scanRgb, hf, if_pos, hm, listingIds, List.filterMap_cons, if_true, addNew]
        rw [ih, keys_addRgb]
        simp [listingIds]
    · simp [scanRgb, hf, ih, listingIds, List.filterMap_cons, addNew]

theorem thermalOf_scanThermal (dir : String) (fnames : List String) (gs : FileGroups)
    (q : String) :
    thermalOf (scanThermal dir fnames gs) q =
      thermalOf gs q ++
        (fnames.filter (fun f => isImage f && (matchTurbineId f == some q))).map
          (osPathJoin dir) := by
  induction fnames generalizing gs with
  | nil => simp [scanThermal]
  | cons f rest ih =>
    by_cases hf : isImage f
    · cases hm : matchTurbineId f with
      | none => simp [scanThermal, hf, hm, ih]
      | some p =>
        by_cases hq : p = q
        · subst hq
          simp [scanThermal, hf, hm, ih, thermalOf_addThermal]
        · have : ¬q = p := fun h => hq h.symm
          simp [scanThermal, hf, hm, ih, thermalOf_addThermal, hq, this]
    · simp [scanThermal, hf, ih]

theorem rgbOf_scanThermal (dir : String) (fnames : List String) (gs : FileGroups)
    (q : String) : rgbOf (scanThermal dir fnames gs) q = rgbOf gs q := by
  induction fnames generalizing gs with
  | nil => simp [scanThermal]
  | cons f rest ih =>
    by_cases hf : isImage f
    · cases hm : matchTurbineId f with
      | none => simp [scanThermal, hf, hm, ih]
      | some p => simp [scanThermal, hf, hm, ih, rgbOf_addThermal]
    · simp [scanThermal, hf, ih]

theorem keys_scanThermal (dir : String) (fnames : List String) (gs : FileGroups) :
    keys (scanThermal dir fnames gs) = addNew (keys gs) (listingIds fnames) := by
  induction fnames generalizing gs with
  | nil => simp [scanThermal, listingIds, addNew]
  | cons f rest ih =>
    by_cases hf : isImage f
    · cases hm : matchTurbineId f with
      | none => simp [scanThermal, hf, hm, ih, listingIds, List.filterMap_cons, addNew]
      | some p =>
        simp only [scanThermal, hf, if_pos, hm, listingIds, List.filterMap_cons, if_true,
          addNew]
        rw [ih, keys_addThermal]
        simp [listingIds]
    · simp [scanThermal, hf, ih, listingIds, List.filterMap_cons, addNew]

/-! ### Key-order and lookup support lemmas -/

theorem nodup_addNew (xs : List String) :
    ∀ ks : List String, ks.Nodup → (addNew ks xs).Nodup := by
  induction xs with
  | nil => intro ks h; exact h
  | cons x rest ih =>
    intro ks h
    by_cases hx : x ∈ ks
    · simpa [addNew, hx] using ih ks h
    · have : (ks ++ [x]).Nodup := by simp [List.nodup_append, h, hx]
      simpa [addNew, hx] using ih (ks ++ [x]) this

theorem addNew_suffix (xs : List String) :
    ∀ ks : List String, ∃ tl, addNew ks xs = ks ++ tl ∧
      ∀ k ∈ tl, k ∉ ks ∧ k ∈ xs := by
  induction xs with
  | nil => intro ks; exact ⟨[], by simp [addNew]⟩
  | cons x rest ih =>
    intro ks
    by_cases hx : x ∈ ks
    · obtain ⟨tl, htl, hmem⟩ := ih ks
      refine ⟨tl, by simpa [addNew, hx] using htl, fun k hk => ?_⟩
      exact ⟨(hmem k hk).1, List.mem_cons_of_mem _ (hmem k hk).2⟩
    · obtain ⟨tl, htl, hmem⟩ := ih (ks ++ [x])
      refine ⟨x :: tl, ?_, ?_⟩
      · simpa [addNew, hx, List.append_assoc] using htl
      · intro k hk
        rcases List.mem_cons.mp hk with h | h
        · subst h; exact ⟨hx, List.mem_cons_self _ _⟩
        · have := hmem k h
          refine ⟨fun hks => this.1 (List.mem_append_left _ hks),
            List.mem_cons_of_mem _ this.2⟩

theorem mem_addNew {xs ks : List String} {k : String} :
    k ∈ addNew ks xs ↔ k ∈ ks ∨ k ∈ xs := by
  induction xs generalizing ks with
  | nil => simp [addNew]
  | cons x rest ih =>
    by_cases hx : x ∈ ks
    · by_cases hkx : k = x
      · subst hkx; simp [addNew, hx, ih, hx]
      · simp [addNew, hx, ih, hkx]
    · simp [addNew, hx, ih, List.mem_append, or_assoc]

theorem lookupG_eq_some_of_mem {gs : FileGroups} {p : String} {g : BladeGroup}
    (hnd : (keys gs).Nodup) (h : (p, g) ∈ gs) : lookupG p gs = some g := by
  induction gs with
  | nil => cases h
  | cons kg rest ih =>
    obtain ⟨k, g'⟩ := kg
    rcases List.mem_cons.mp h with h1 | h1
    · have h2 : p = k ∧ g = g' := by simpa [Prod.ext_iff] using h1
      obtain ⟨rfl, rfl⟩ := h2
      simp [lookupG]
    · have hk : k ≠ p := by
        rintro rfl
        have hmem : k ∈ keys rest := List.mem_map.mpr ⟨(k, g), h1, rfl⟩
        exact (List.nodup_cons.mp (by simpa [keys] using hnd)).1 hmem
      have hrest : (keys rest).Nodup := (List.nodup_cons.mp (by simpa [keys] using hnd)).2
      simp [lookupG, hk, ih hrest h1]

theorem mem_of_lookupG_eq_some {gs : FileGroups} {p : String} {g : BladeGroup}
    (h : lookupG p gs = some g) : (p, g) ∈ gs := by
  induction gs with
  | nil => simp [lookupG] at h
  | cons kg rest ih =>
    obtain ⟨k, g'⟩ := kg
    by_cases hk : k = p
    · subst hk
      have hg : g' = g := by simpa [lookupG] using h
      subst hg
      exact List.mem_cons_self _ _
    · simp only [lookupG, if_neg hk] at h
      exact List.mem_cons_of_mem _ (ih h)

theorem rgbOf_eq_of_mem {gs : FileGroups} {p : String} {g : BladeGroup}
    (hnd : (keys gs).Nodup) (h : (p, g) ∈ gs) : rgbOf gs p = g.rgb := by
  simp [rgbOf, lookupG_eq_some_of_mem hnd h]

theorem thermalOf_eq_of_mem {gs : FileGroups} {p : String} {g : BladeGroup}
    (hnd : (keys gs).Nodup) (h : (p, g) ∈ gs) : thermalOf gs p = g.thermal := by
  simp [thermalOf, lookupG_eq_some_of_mem hnd h]

theorem exists_lookupG_of_rgbOf_ne_nil {gs : FileGroups} {p : String}
    (h : rgbOf gs p ≠ []) : ∃ g, lookupG p gs = some g ∧ g.rgb = rgbOf gs p := by
  unfold rgbOf at *
  cases hl : lookupG p gs with
  | none => simp [hl] at h
  | some g => exact ⟨g, rfl, by simp [hl]⟩

theorem exists_lookupG_of_thermalOf_ne_nil {gs : FileGroups} {p : String}
    (h : thermalOf gs p ≠ []) :
    ∃ g, lookupG p gs = some g ∧ g.thermal = thermalOf gs p := by
  unfold thermalOf at *
  cases hl : lookupG p gs with
  | none => simp [hl] at h
  | some g => exact ⟨g, rfl, by simp [hl]⟩

/-! ### Sorting and path-join support lemmas -/

theorem lexLe_total (a : List Char) : ∀ b : List Char, lexLe a b = true ∨ lexLe b a = true := by
  induction a with
  | nil => intro b; exact Or.inl rfl
  | cons x xs ih =>
    intro b
    cases b with
    | nil => exact Or.inr rfl
    | cons y ys =>
      by_cases hxy : x = y
      · subst hxy
        rcases ih ys with h | h
        · exact Or.inl (by simpa [lexLe] using h)
        · exact Or.inr (by simpa [lexLe] using h)
      · have hyx : y ≠ x := fun h => hxy h.symm
        rcases lt_trichotomy x y with h | h | h
        · exact Or.inl (by simp [lexLe, hxy, h])
        · exact absurd h hxy
        · exact Or.inr (by simp [lexLe, hyx, h])

theorem lexLe_trans (a : List Char) :
    ∀ b c : List Char, lexLe a b = true → lexLe b c = true → lexLe a c = true := by
  induction a with
  | nil => intro b c _ _; rfl
  | cons x xs ih =>
    intro b c hab hbc
    cases b with
    | nil => simp [lexLe] at hab
    | cons y ys =>
      cases c with
      | nil => simp [lexLe] at hbc
      | cons z zs =>
        by_cases hxy : x = y
        · subst hxy
          by_cases hyz : x = z
          · subst hyz
            simp only [lexLe, if_pos rfl] at hab hbc ⊢
            exact ih ys zs hab hbc
          · simpa [lexLe, hyz] using (by simpa [lexLe, hyz] using hbc : x < z)
        · have hlt : x < y := by simpa [lexLe, hxy] using hab
          by_cases hyz : y = z
          · subst hyz
            have hxz : x ≠ y := hxy
            simp [lexLe, hxz, hlt]
          · have hlt2 : y < z := by simpa [lexLe, hyz] using hbc
            have hxz : x < z := lt_trans hlt hlt2
            simp [lexLe, ne_of_lt hxz, hxz]

instance : IsTotal String (fun a b => strLe a b = true) :=
  ⟨fun a b => lexLe_total a.data b.data⟩

instance : IsTrans String (fun a b => strLe a b = true) :=
  ⟨fun a b c => lexLe_trans a.data b.data c.data⟩

theorem mem_sortStrings {a : String} {l : List String} : a ∈ sortStrings l ↔ a ∈ l :=
  (List.perm_insertionSort (fun a b => strLe a b = true) l).mem_iff

theorem sorted_sortStrings (l : List String) :
    List.Sorted (fun a b : String => strLe a b = true) (sortStrings l) :=
  List.sorted_insertionSort (fun a b => strLe a b = true) l

theorem osPathJoin_inj {d f f' : String} (hf : startsSlash f = false)
    (hf' : startsSlash f' = false) (h : osPathJoin d f = osPathJoin d f') : f = f' := by
  simp only [osPathJoin, hf, hf', Bool.false_eq_true, if_false] at h
  by_cases hd : d.data = [] ∨ endsSlash d
  · simp only [if_pos hd] at h
    have h2 : d.data ++ f.data = d.data ++ f'.data := congrArg String.data h
    exact String.ext (List.append_cancel_left h2)
  · simp only [if_neg hd] at h
    have h2 : d.data ++ '/' :: f.data = d.data ++ '/' :: f'.data := congrArg String.data h
    have h3 := List.append_cancel_left h2
    injection h3 with _ h4
    exact String.ext h4

/-! ### Whole-run characterization -/

/-- The directory listing the run effectively uses for a path: the real
listing when the path is a directory, the empty listing otherwise. -/
def listingOf (fs : FileSystem) (d : String) : List String := (fs d).getD []

theorem group_files_eq_scan (fs : FileSystem) (d1 d2 : String) :
    group_files_by_turbine_blade fs d1 d2 =
      scanThermal d2 (sortStrings (listingOf fs d2))
        (scanRgb d1 (sortStrings (listingOf fs d1)) []) := by
  unfold group_files_by_turbine_blade listingOf
  cases fs d1 <;> cases fs d2 <;> rfl

theorem rgbOf_group_files (fs : FileSystem) (d1 d2 : String) (q : String) :
    rgbOf (group_files_by_turbine_blade fs d1 d2) q =
      ((sortStrings (listingOf fs d1)).filter
        (fun f => isImage f && (matchTurbineId f == some q))).map (osPathJoin d1) := by
  rw [group_files_eq_scan, rgbOf_scanThermal, rgbOf_scanRgb]
  simp [rgbOf, lookupG]

theorem thermalOf_group_files (fs : FileSystem) (d1 d2 : String) (q : String) :
    thermalOf (group_files_by_turbine_blade fs d1 d2) q =
      ((sortStrings (listingOf fs d2)).filter
        (fun f => isImage f && (matchTurbineId f == some q))).map (osPathJoin d2) := by
  rw [group_files_eq_scan, thermalOf_scanThermal, thermalOf_scanRgb]
  simp [thermalOf, lookupG]

theorem keys_group_files (fs : FileSystem) (d1 d2 : String) :
    keys (group_files_by_turbine_blade fs d1 d2) =
      addNew (addNew [] (listingIds (sortStrings (listingOf fs d1))))
        (listingIds (sortStrings (listingOf fs d2))) := by
  rw [group_files_eq_scan, keys_scanThermal, keys_scanRgb]
  rfl

theorem keys_group_files_nodup (fs : FileSystem) (d1 d2 : String) :
    (keys (group_files_by_turbine_blade fs d1 d2)).Nodup := by
  rw [keys_group_files]
  exact nodup_addNew _ _ (nodup_addNew _ _ (List.nodup_nil))

/-! ### Nonemptiness invariant -/

/-- Every group in the dictionary has at least one file. -/
def goodGroups (gs : FileGroups) : Prop :=
  ∀ pg ∈ gs, pg.2.rgb ≠ [] ∨ pg.2.thermal ≠ []

theorem goodGroups_addRgb {gs : FileGroups} (p path : String) (h : goodGroups gs) :
    goodGroups (addRgb gs p path) := by
  induction gs with
  | nil =>
    intro pg hpg
    simp only [addRgb, List.mem_singleton] at hpg
    subst hpg
    simp
  | cons kg rest ih =>
    obtain ⟨k, g⟩ := kg
    have hrest : goodGroups rest := fun pg hpg => h pg (List.mem_cons_of_mem _ hpg)
    by_cases hk : k = p
    · intro pg hpg
      simp only [addRgb, if_pos hk, List.mem_cons] at hpg
      rcases hpg with h1 | h1
      · subst h1; simp
      · exact hrest pg h1
    · intro pg hpg
      simp only [addRgb, if_neg hk, List.mem_cons] at hpg
      rcases hpg with h1 | h1
      · subst h1; exact h (k, g) (List.mem_cons_self _ _)
      · exact ih hrest pg h1

theorem goodGroups_addThermal {gs : FileGroups} (p path : String) (h : goodGroups gs) :
    goodGroups (addThermal gs p path) := by
  induction gs with
  | nil =>
    intro pg hpg
    simp only [addThermal, List.mem_singleton] at hpg
    subst hpg
    simp
  | cons kg rest ih =>
    obtain ⟨k, g⟩ := kg
    have hrest : goodGroups rest := fun pg hpg => h pg (List.mem_cons_of_mem _ hpg)
    by_cases hk : k = p
    · intro pg hpg
      simp only [addThermal, if_pos hk, List.mem_cons] at hpg
      rcases hpg with h1 | h1
      · subst h1; simp
      · exact hrest pg h1
    · intro pg hpg
      simp only [addThermal, if_neg hk, List.mem_cons] at hpg
      rcases hpg with h1 | h1
      · subst h1; exact h (k, g) (List.mem_cons_self _ _)
      · exact ih hrest pg h1

theorem goodGroups_scanRgb (dir : String) (fnames : List String) {gs : FileGroups}
    (h : goodGroups gs) : goodGroups (scanRgb dir fnames gs) := by
  induction fnames generalizing gs with
  | nil => exact h
  | cons f rest ih =>
    by_cases hf : isImage f
    · cases hm : matchTurbineId f with
      | none => simpa [scanRgb, hf, hm] using ih h
      | some p => simpa [scanRgb, hf, hm] using ih (goodGroups_addRgb p (osPathJoin dir f) h)
    · simpa [scanRgb, hf] using ih h

theorem goodGroups_scanThermal (dir : String) (fnames : List String) {gs : FileGroups}
    (h : goodGroups gs) : goodGroups (scanThermal dir fnames gs) := by
  induction fnames generalizing gs with
  | nil => exact h
  | cons f rest ih =>
    by_cases hf : isImage f
    · cases hm : matchTurbineId f with
      | none => simpa [scanThermal, hf, hm] using ih h
      | some p =>
        simpa [scanThermal, hf, hm] using ih (goodGroups_addThermal p (osPathJoin dir f) h)
    · simpa [scanThermal, hf] using ih h

theorem goodGroups_group_files (fs : FileSystem) (d1 d2 : String) :
    goodGroups (group_files_by_turbine_blade fs d1 d2) := by
  rw [group_files_eq_scan]
  exact goodGroups_scanThermal _ _ (goodGroups_scanRgb _ _ (by intro pg hpg; cases hpg))

/-! ### Orchestrator helper lemmas -/

theorem report_calls_of_good {gs : FileGroups} (h : goodGroups gs) :
    report_calls gs = gs.map (fun pr => (pr.2.rgb, pr.2.thermal, pr.1)) := by
  induction gs with
  | nil => rfl
  | cons kg rest ih =>
    obtain ⟨k, g⟩ := kg
    have hk := h (k, g) (List.mem_cons_self _ _)
    have hrest : goodGroups rest := fun pg hpg => h pg (List.mem_cons_of_mem _ hpg)
    have hcond : ¬(g.rgb = [] ∧ g.thermal = []) := by
      rintro ⟨h1, h2⟩
      rcases hk with h3 | h3 <;> simp_all
    simp [report_calls, hcond, ih hrest]

theorem html_sections_of_good (report : List String → List String → String → String)
    (md : String → String) {gs : FileGroups} (h : goodGroups gs) :
    html_sections report md gs =
      gs.map (fun pr => section_html pr.1 (md (report pr.2.rgb pr.2.thermal pr.1))) := by
  induction gs with
  | nil => rfl
  | cons kg rest ih =>
    obtain ⟨k, g⟩ := kg
    have hk := h (k, g) (List.mem_cons_self _ _)
    have hrest : goodGroups rest := fun pg hpg => h pg (List.mem_cons_of_mem _ hpg)
    have hcond : ¬(g.rgb = [] ∧ g.thermal = []) := by
      rintro ⟨h1, h2⟩
      rcases hk with h3 | h3 <;> simp_all
    simp [html_sections, hcond, ih hrest]

theorem mem_report_calls_nonempty {gs : FileGroups}
    {c : List String × List String × String} (h : c ∈ report_calls gs) :
    c.1 ≠ [] ∨ c.2.1 ≠ [] := by
  induction gs with
  | nil => simp [report_calls] at h
  | cons kg rest ih =>
    obtain ⟨k, g⟩ := kg
    by_cases hcond : g.rgb = [] ∧ g.thermal = []
    · exact ih (by simpa [report_calls, hcond] using h)
    · rcases List.mem_cons.mp (by simpa [report_calls, hcond] using h) with h1 | h1
      · subst h1
        by_cases hr : g.rgb = []
        · have ht : g.thermal ≠ [] := fun hthm => hcond ⟨hr, hthm⟩
          exact Or.inr ht
        · exact Or.inl hr
      · exact ih h1

/-! ### Concrete fixtures used by the witnesses -/

/-- A small filesystem fixture: an RGB directory with two matching files
and one non-matching file, and a thermal directory with one matching file
(it realizes the concrete scenario of the specification). -/
def fsEx : FileSystem := fun d =>
  if d = "rgbdir" then
    some ["Turbine-2_A_PS_sequence_14.png", "Turbine-2_A_PS_sequence_13.jpg", "random.jpg"]
  else if d = "thermaldir" then some ["Turbine-2_A_thermal_01.jpg"]
  else none

/-- A second filesystem fixture that differs from `fsEx` away from the two
directories of interest but agrees with it on them. -/
def fsEx2 : FileSystem := fun d =>
  if d = "otherdir" then some ["unrelated.jpg"] else fsEx d

/-! ### Claims -/

/-- Claim C3: for every blade identifier and every pair of rgb/thermal path
lists, the user message built by `generate_blade_report` is the
concatenation of an RGB block followed by a thermal block; a block for a
non-empty list is one text item `Below are N <modality> images for
<identifier>:` followed by one image item per path in list order, and a
block for an empty list contributes no items at all. -/
theorem claim_C3 (r t : List String) (b : String) :
    user_content r t b =
      (if r = [] then []
       else QwenContent.text ("Below are " ++ toString r.length ++ " RGB images for " ++
              b ++ ":") :: r.map QwenContent.image) ++
      (if t = [] then []
       else QwenContent.text ("Below are " ++ toString t.length ++ " thermal images for " ++
              b ++ ":") :: t.map QwenContent.image) := by
  unfold user_content
  by_cases hr : r = [] <;> by_cases ht : t = [] <;>
    simp [hr, ht, List.isEmpty_iff, List.isEmpty_eq_false]

/-- Claim C6: a group whose rgb and thermal lists are both empty is never
among the `generate_blade_report` invocations of the orchestrator loop, and
removing such a group from the mapping leaves the emitted HTML sections
unchanged (the group produces no section). -/
theorem claim_C6 (report : List String → List String → String → String)
    (md : String → String) (gs pre post : FileGroups) (b : String) :
    (([], [], b) ∉ report_calls gs) ∧
    html_sections report md (pre ++ (b, ⟨[], []⟩) :: post) =
      html_sections report md (pre ++ post) ∧
    report_calls (pre ++ (b, ⟨[], []⟩) :: post) = report_calls (pre ++ post) := by
  refine ⟨?_, ?_, ?_⟩
  · intro hmem
    rcases mem_report_calls_nonempty hmem with h | h <;> exact h rfl
  · induction pre with
    | nil => simp [html_sections]
    | cons kg rest ih =>
      obtain ⟨k, g⟩ := kg
      by_cases hcond : g.rgb = [] ∧ g.thermal = [] <;>
        simp [html_sections, hcond, ih]
  · induction pre with
    | nil => simp [report_calls]
    | cons kg rest ih =>
      obtain ⟨k, g⟩ := kg
      by_cases hcond : g.rgb = [] ∧ g.thermal = [] <;>
        simp [report_calls, hcond, ih]

/-- Witness for C6 at a concrete mapping. -/
theorem claim_C6_witness :
    (([], [], "Turbine-9_Z") ∉
      report_calls [("Turbine-1_A", ⟨["p.jpg"], []⟩)]) ∧
    html_sections (fun _ _ _ => "r") (fun s => s)
        ([("Turbine-1_A", ⟨["p.jpg"], []⟩)] ++ ("Turbine-9_Z", ⟨[], []⟩) :: []) =
      html_sections (fun _ _ _ => "r") (fun s => s)
        ([("Turbine-1_A", ⟨["p.jpg"], []⟩)] ++ []) ∧
    report_calls ([("Turbine-1_A", ⟨["p.jpg"], []⟩)] ++ ("Turbine-9_Z", ⟨[], []⟩) :: []) =
      report_calls ([("Turbine-1_A", ⟨["p.jpg"], []⟩)] ++ []) :=
  claim_C6 (fun _ _ _ => "r") (fun s => s)
    [("Turbine-1_A", ⟨["p.jpg"], []⟩)]
    [("Turbine-1_A", ⟨["p.jpg"], []⟩)] [] "Turbine-9_Z"

/-- Claim C7: a missing directory contributes zero files and raises no
error: if the thermal path is not a directory every group has an empty
thermal list, and if the RGB path is not a directory every group has an
empty rgb list. -/
theorem claim_C7 (fs : FileSystem) (d1 d2 : String) :
    (fs d2 = none →
      ∀ p g, (p, g) ∈ group_files_by_turbine_blade fs d1 d2 → g.thermal = []) ∧
    (fs d1 = none →
      ∀ p g, (p, g) ∈ group_files_by_turbine_blade fs d1 d2 → g.rgb = []) := by
  constructor
  · intro h2 p g hmem
    have he := thermalOf_eq_of_mem (keys_group_files_nodup fs d1 d2) hmem
    rw [thermalOf_group_files] at he
    simp only [listingOf, h2, Option.getD_none] at he
    simpa [sortStrings, List.insertionSort] using he.symm
  · intro h1 p g hmem
    have he := rgbOf_eq_of_mem (keys_group_files_nodup fs d1 d2) hmem
    rw [rgbOf_group_files] at he
    simp only [listingOf, h1, Option.getD_none] at he
    simpa [sortStrings, List.insertionSort] using he.symm

/-- Witness for C7: RGB directory present, thermal directory absent; the
single resulting group has an empty thermal list. -/
theorem claim_C7_witness :
    fsEx "missingdir" = none ∧
    (∀ p g, (p, g) ∈ group_files_by_turbine_blade fsEx "rgbdir" "missingdir" →
      g.thermal = []) :=
  ⟨by decide, (claim_C7 fsEx "rgbdir" "missingdir").1 (by decide)⟩

/-- Claim C8: the grouping depends only on the contents of the two scanned
directories, so two runs over unchanged directories yield identical
mappings (same keys in the same order, equal lists in the same order). -/
theorem claim_C8 (fs1 fs2 : FileSystem) (d1 d2 : String)
    (h1 : fs1 d1 = fs2 d1) (h2 : fs1 d2 = fs2 d2) :
    group_files_by_turbine_blade fs1 d1 d2 = group_files_by_turbine_blade fs2 d1 d2 := by
  unfold group_files_by_turbine_blade
  rw [h1, h2]

/-- Witness for C8 at two filesystem states agreeing on both scanned
directories. -/
theorem claim_C8_witness :
    fsEx "rgbdir" = fsEx2 "rgbdir" ∧ fsEx "thermaldir" = fsEx2 "thermaldir" ∧
    group_files_by_turbine_blade fsEx "rgbdir" "thermaldir" =
      group_files_by_turbine_blade fsEx2 "rgbdir" "thermaldir" :=
  ⟨by decide, by decide,
    claim_C8 fsEx fsEx2 "rgbdir" "thermaldir" (by decide) (by decide)⟩

/-- Claim C9: the model is invoked with the fixed budget
`max_new_tokens = 1024`; when the processor produces one input sequence and
the model returns that sequence extended with freshly generated tokens, the
function returns the decoding of exactly the fresh tokens (the echoed
prompt is stripped), taking the first completion verbatim with no further
processing. -/
theorem claim_C9 (M : QwenModel) (r t : List String) (b : String)
    (inIds fresh : List Nat)
    (hids : M.input_ids (qwen_messages r t b) = [inIds])
    (hgen : M.generate [inIds] 1024 = [inIds ++ fresh]) :
    generate_blade_report M r t b = (M.batch_decode [fresh]).head? := by
  simp [generate_blade_report, hids, hgen]

/-- Witness for C9 at a concrete model stub. -/
theorem claim_C9_witness :
    (QwenModel.mk (fun _ => [[0, 1]]) (fun _ n => if n = 1024 then [[0, 1, 5, 6]] else [])
        (fun l => l.map (fun _ => "report"))).input_ids (qwen_messages [] [] "Turbine-2_A") =
      [[0, 1]] ∧
    (QwenModel.mk (fun _ => [[0, 1]]) (fun _ n => if n = 1024 then [[0, 1, 5, 6]] else [])
        (fun l => l.map (fun _ => "report"))).generate [[0, 1]] 1024 = [[0, 1] ++ [5, 6]] ∧
    generate_blade_report
        (QwenModel.mk (fun _ => [[0, 1]]) (fun _ n => if n = 1024 then [[0, 1, 5, 6]] else [])
          (fun l => l.map (fun _ => "report"))) [] [] "Turbine-2_A" =
      ((QwenModel.mk (fun _ => [[0, 1]]) (fun _ n => if n = 1024 then [[0, 1, 5, 6]] else [])
          (fun l => l.map (fun _ => "report"))).batch_decode [[5, 6]]).head? :=
  ⟨rfl, rfl,
    claim_C9 _ [] [] "Turbine-2_A" [0, 1] [5, 6] rfl rfl⟩

/-- Claim C10: every group the grouping returns has at least one file in
its rgb or thermal list, so the skip branch of the orchestrator loop is
unreachable on such mappings: the sections and the report invocations are
exactly one per group, with no group skipped. -/
theorem claim_C10 (fs : FileSystem) (d1 d2 : String) :
    (∀ p g, (p, g) ∈ group_files_by_turbine_blade fs d1 d2 →
      g.rgb ≠ [] ∨ g.thermal ≠ []) ∧
    (∀ (report : List String → List String → String → String) (md : String → String),
      html_sections report md (group_files_by_turbine_blade fs d1 d2) =
        (group_files_by_turbine_blade fs d1 d2).map
          (fun pr => section_html pr.1 (md (report pr.2.rgb pr.2.thermal pr.1)))) ∧
    report_calls (group_files_by_turbine_blade fs d1 d2) =
      (group_files_by_turbine_blade fs d1 d2).map
        (fun pr => (pr.2.rgb, pr.2.thermal, pr.1)) := by
  refine ⟨fun p g h => goodGroups_group_files fs d1 d2 (p, g) h, fun report md => ?_, ?_⟩
  · exact html_sections_of_good report md (goodGroups_group_files fs d1 d2)
  · exact report_calls_of_good (goodGroups_group_files fs d1 d2)

/-- The single blade group the fixture filesystem produces. -/
def groupEx : BladeGroup :=
  BladeGroup.mk
    ["rgbdir/Turbine-2_A_PS_sequence_13.jpg", "rgbdir/Turbine-2_A_PS_sequence_14.png"]
    ["thermaldir/Turbine-2_A_thermal_01.jpg"]

/-- Witness for C10 at the concrete fixture filesystem. -/
theorem claim_C10_witness :
    (("Turbine-2_A", groupEx) ∈ group_files_by_turbine_blade fsEx "rgbdir" "thermaldir") ∧
    (groupEx.rgb ≠ [] ∨ groupEx.thermal ≠ []) :=
  ⟨by decide,
    (claim_C10 fsEx "rgbdir" "thermaldir").1 "Turbine-2_A" groupEx (by decide)⟩

/-- Claim C5: the mapping keys are unique and appear in first-seen order,
identifiers seen in the (sorted) RGB listing preceding identifiers first
seen only in the thermal listing; scanned listings are lexicographically
sorted; and each group's rgb and thermal lists are exactly the matching
files of the corresponding sorted listing, in that sorted order, joined to
their directory. -/
theorem claim_C5 (fs : FileSystem) (d1 d2 : String) :
    (keys (group_files_by_turbine_blade fs d1 d2)).Nodup ∧
    keys (group_files_by_turbine_blade fs d1 d2) =
      addNew (addNew [] (listingIds (sortStrings (listingOf fs d1))))
        (listingIds (sortStrings (listingOf fs d2))) ∧
    (∃ tl, keys (group_files_by_turbine_blade fs d1 d2) =
        addNew [] (listingIds (sortStrings (listingOf fs d1))) ++ tl ∧
      ∀ k ∈ tl, k ∉ addNew [] (listingIds (sortStrings (listingOf fs d1))) ∧
        k ∈ listingIds (sortStrings (listingOf fs d2))) ∧
    List.Sorted (fun a b : String => strLe a b = true) (sortStrings (listingOf fs d1)) ∧
    List.Sorted (fun a b : String => strLe a b = true) (sortStrings (listingOf fs d2)) ∧
    (∀ p, rgbOf (group_files_by_turbine_blade fs d1 d2) p =
      ((sortStrings (listingOf fs d1)).filter
        (fun f => isImage f && (matchTurbineId f == some p))).map (osPathJoin d1)) ∧
    (∀ p, thermalOf (group_files_by_turbine_blade fs d1 d2) p =
      ((sortStrings (listingOf fs d2)).filter
        (fun f => isImage f && (matchTurbineId f == some p))).map (osPathJoin d2)) := by
  refine ⟨keys_group_files_nodup fs d1 d2, keys_group_files fs d1 d2, ?_,
    sorted_sortStrings _, sorted_sortStrings _,
    rgbOf_group_files fs d1 d2, thermalOf_group_files fs d1 d2⟩
  rw [keys_group_files]
  exact addNew_suffix _ _

/-- Witness for C5 at the concrete fixture filesystem. -/
theorem claim_C5_witness :
    (keys (group_files_by_turbine_blade fsEx "rgbdir" "thermaldir")).Nodup ∧
    keys (group_files_by_turbine_blade fsEx "rgbdir" "thermaldir") = ["Turbine-2_A"] :=
  ⟨(claim_C5 fsEx "rgbdir" "thermaldir").1, by decide⟩

/-- Claim C1: a filename of the RGB (resp. thermal) listing with a
supported image extension whose start matches the identifier pattern is
placed, as its joined path, in the rgb (resp. thermal) list of the group
keyed by the matched identifier; the keys are unique and no other group's
list of that modality contains the path (listing entries are relative
names, so they do not start with `/`). -/
theorem claim_C1 (fs : FileSystem) (d1 d2 : String) :
    (keys (group_files_by_turbine_blade fs d1 d2)).Nodup ∧
    (∀ L fname p, fs d1 = some L → fname ∈ L → isImage fname = true →
      matchTurbineId fname = some p → (∀ f ∈ L, startsSlash f = false) →
      ∃ g, lookupG p (group_files_by_turbine_blade fs d1 d2) = some g ∧
        osPathJoin d1 fname ∈ g.rgb ∧
        ∀ q g', (q, g') ∈ group_files_by_turbine_blade fs d1 d2 →
          osPathJoin d1 fname ∈ g'.rgb → q = p) ∧
    (∀ L fname p, fs d2 = some L → fname ∈ L → isImage fname = true →
      matchTurbineId fname = some p → (∀ f ∈ L, startsSlash f = false) →
      ∃ g, lookupG p (group_files_by_turbine_blade fs d1 d2) = some g ∧
        osPathJoin d2 fname ∈ g.thermal ∧
        ∀ q g', (q, g') ∈ group_files_by_turbine_blade fs d1 d2 →
          osPathJoin d2 fname ∈ g'.thermal → q = p) := by
  have hnd := keys_group_files_nodup fs d1 d2
  refine ⟨hnd, ?_, ?_⟩
  · intro L fname p hL hmem himg hmatch hslash
    have hL' : listingOf fs d1 = L := by simp [listingOf, hL]
    have hmem' : fname ∈ sortStrings L := mem_sortStrings.mpr hmem
    have hfil : fname ∈ (sortStrings L).filter
        (fun f => isImage f && (matchTurbineId f == some p)) :=
      List.mem_filter.mpr ⟨hmem', by simp [himg, hmatch]⟩
    have hin : osPathJoin d1 fname ∈
        rgbOf (group_files_by_turbine_blade fs d1 d2) p := by
      rw [rgbOf_group_files, hL']
      exact List.mem_map.mpr ⟨fname, hfil, rfl⟩
    have hne : rgbOf (group_files_by_turbine_blade fs d1 d2) p ≠ [] :=
      fun hnil => by simp [hnil] at hin
    obtain ⟨g, hg, hgr⟩ := exists_lookupG_of_rgbOf_ne_nil hne
    refine ⟨g, hg, hgr ▸ hin, ?_⟩
    intro q g' hmemq hpath
    have hq : rgbOf (group_files_by_turbine_blade fs d1 d2) q = g'.rgb :=
      rgbOf_eq_of_mem hnd hmemq
    have hpath' : osPathJoin d1 fname ∈
        ((sortStrings L).filter
          (fun f => isImage f && (matchTurbineId f == some q))).map (osPathJoin d1) := by
      rw [← hL', ← rgbOf_group_files, hq]
      exact hpath
    obtain ⟨f', hf', hjoin⟩ := List.mem_map.mp hpath'
    have hf'L : f' ∈ L := mem_sortStrings.mp (List.mem_filter.mp hf').1
    have heq : f' = fname :=
      osPathJoin_inj (hslash f' hf'L) (hslash fname hmem) hjoin
    have hcond := (List.mem_filter.mp hf').2
    rw [heq] at hcond
    simp [himg, hmatch] at hcond
    exact hcond.symm
  · intro L fname p hL hmem himg hmatch hslash
    have hL' : listingOf fs d2 = L := by simp [listingOf, hL]
    have hmem' : fname ∈ sortStrings L := mem_sortStrings.mpr hmem
    have hfil : fname ∈ (sortStrings L).filter
        (fun f => isImage f && (matchTurbineId f == some p)) :=
      List.mem_filter.mpr ⟨hmem', by simp [himg, hmatch]⟩
    have hin : osPathJoin d2 fname ∈
        thermalOf (group_files_by_turbine_blade fs d1 d2) p := by
      rw [thermalOf_group_files, hL']
      exact List.mem_map.mpr ⟨fname, hfil, rfl⟩
    have hne : thermalOf (group_files_by_turbine_blade fs d1 d2) p ≠ [] :=
      fun hnil => by simp [hnil] at hin
    obtain ⟨g, hg, hgr⟩ := exists_lookupG_of_thermalOf_ne_nil hne
    refine ⟨g, hg, hgr ▸ hin, ?_⟩
    intro q g' hmemq hpath
    have hq : thermalOf (group_files_by_turbine_blade fs d1 d2) q = g'.thermal :=
      thermalOf_eq_of_mem hnd hmemq
    have hpath' : osPathJoin d2 fname ∈
        ((sortStrings L).filter
          (fun f => isImage f && (matchTurbineId f == some q))).map (osPathJoin d2) := by
      rw [← hL', ← thermalOf_group_files, hq]
      exact hpath
    obtain ⟨f', hf', hjoin⟩ := List.mem_map.mp hpath'
    have hf'L : f' ∈ L := mem_sortStrings.mp (List.mem_filter.mp hf').1
    have heq : f' = fname :=
      osPathJoin_inj (hslash f' hf'L) (hslash fname hmem) hjoin
    have hcond := (List.mem_filter.mp hf').2
    rw [heq] at hcond
    simp [himg, hmatch] at hcond
    exact hcond.symm

/-- Witness for C1: the file `Turbine-2_A_PS_sequence_13.jpg` of the RGB
fixture directory lands in the rgb list of the single group keyed
`Turbine-2_A`. -/
theorem claim_C1_witness :
    isImage "Turbine-2_A_PS_sequence_13.jpg" = true ∧
    matchTurbineId "Turbine-2_A_PS_sequence_13.jpg" = some "Turbine-2_A" ∧
    ∃ g, lookupG "Turbine-2_A" (group_files_by_turbine_blade fsEx "rgbdir" "thermaldir") =
        some g ∧
      osPathJoin "rgbdir" "Turbine-2_A_PS_sequence_13.jpg" ∈ g.rgb ∧
      ∀ q g', (q, g') ∈ group_files_by_turbine_blade fsEx "rgbdir" "thermaldir" →
        osPathJoin "rgbdir" "Turbine-2_A_PS_sequence_13.jpg" ∈ g'.rgb → q = "Turbine-2_A" :=
  ⟨by decide, by decide,
    (claim_C1 fsEx "rgbdir" "thermaldir").2.1
      ["Turbine-2_A_PS_sequence_14.png", "Turbine-2_A_PS_sequence_13.jpg", "random.jpg"]
      "Turbine-2_A_PS_sequence_13.jpg" "Turbine-2_A"
      (by decide) (by decide) (by decide) (by decide) (by decide)⟩

/-- Claim C2: every path stored in any group's rgb (resp. thermal) list
originates from a listing entry with a supported image extension whose
start matches the pattern with that group's key; and the joined path of a
listing entry with an unsupported extension or a non-matching name belongs
to no group's list of its directory's modality (exclusion is silent: the
grouping function is total). -/
theorem claim_C2 (fs : FileSystem) (d1 d2 : String) :
    (∀ q g, (q, g) ∈ group_files_by_turbine_blade fs d1 d2 →
      (∀ path ∈ g.rgb, ∃ f, f ∈ listingOf fs d1 ∧ isImage f = true ∧
        matchTurbineId f = some q ∧ path = osPathJoin d1 f) ∧
      (∀ path ∈ g.thermal, ∃ f, f ∈ listingOf fs d2 ∧ isImage f = true ∧
        matchTurbineId f = some q ∧ path = osPathJoin d2 f)) ∧
    (∀ L fname, fs d1 = some L → fname ∈ L →
      (isImage fname = false ∨ matchTurbineId fname = none) →
      (∀ f ∈ L, startsSlash f = false) →
      ∀ q g, (q, g) ∈ group_files_by_turbine_blade fs d1 d2 →
        osPathJoin d1 fname ∉ g.rgb) ∧
    (∀ L fname, fs d2 = some L → fname ∈ L →
      (isImage fname = false ∨ matchTurbineId fname = none) →
      (∀ f ∈ L, startsSlash f = false) →
      ∀ q g, (q, g) ∈ group_files_by_turbine_blade fs d1 d2 →
        osPathJoin d2 fname ∉ g.thermal) := by
  have hnd := keys_group_files_nodup fs d1 d2
  refine ⟨?_, ?_, ?_⟩
  · intro q g hmem
    constructor
    · intro path hpath
      have hq : rgbOf (group_files_by_turbine_blade fs d1 d2) q = g.rgb :=
        rgbOf_eq_of_mem hnd hmem
      have hpath' : path ∈ ((sortStrings (listingOf fs d1)).filter
          (fun f => isImage f && (matchTurbineId f == some q))).map (osPathJoin d1) := by
        rw [← rgbOf_group_files, hq]
        exact hpath
      obtain ⟨f, hf, hjoin⟩ := List.mem_map.mp hpath'
      obtain ⟨hfl, hcond⟩ := List.mem_filter.mp hf
      have hc : isImage f = true ∧ matchTurbineId f = some q := by
        simpa using hcond
      exact ⟨f, mem_sortStrings.mp hfl, hc.1, hc.2, hjoin.symm⟩
    · intro path hpath
      have hq : thermalOf (group_files_by_turbine_blade fs d1 d2) q = g.thermal :=
        thermalOf_eq_of_mem hnd hmem
      have hpath' : path ∈ ((sortStrings (listingOf fs d2)).filter
          (fun f => isImage f && (matchTurbineId f == some q))).map (osPathJoin d2) := by
        rw [← thermalOf_group_files, hq]
        exact hpath
      obtain ⟨f, hf, hjoin⟩ := List.mem_map.mp hpath'
      obtain ⟨hfl, hcond⟩ := List.mem_filter.mp hf
      have hc : isImage f = true ∧ matchTurbineId f = some q := by
        simpa using hcond
      exact ⟨f, mem_sortStrings.mp hfl, hc.1, hc.2, hjoin.symm⟩
  · intro L fname hL hmem hbad hslash q g hmemq hpath
    have hL' : listingOf fs d1 = L := by simp [listingOf, hL]
    have hq : rgbOf (group_files_by_turbine_blade fs d1 d2) q = g.rgb :=
      rgbOf_eq_of_mem hnd hmemq
    have hpath' : osPathJoin d1 fname ∈ ((sortStrings L).filter
        (fun f => isImage f && (matchTurbineId f == some q))).map (osPathJoin d1) := by
      rw [← hL', ← rgbOf_group_files, hq]
      exact hpath
    obtain ⟨f', hf', hjoin⟩ := List.mem_map.mp hpath'
    have hf'L : f' ∈ L := mem_sortStrings.mp (List.mem_filter.mp hf').1
    have heq : f' = fname :=
      osPathJoin_inj (hslash f' hf'L) (hslash fname hmem) hjoin
    have hcond := (List.mem_filter.mp hf').2
    rw [heq] at hcond
    rcases hbad with hb | hb <;> simp [hb] at hcond
  · intro L fname hL hmem hbad hslash q g hmemq hpath
    have hL' : listingOf fs d2 = L := by simp [listingOf, hL]
    have hq : thermalOf (group_files_by_turbine_blade fs d1 d2) q = g.thermal :=
      thermalOf_eq_of_mem hnd hmemq
    have hpath' : osPathJoin d2 fname ∈ ((sortStrings L).filter
        (fun f => isImage f && (matchTurbineId f == some q))).map (osPathJoin d2) := by
      rw [← hL', ← thermalOf_group_files, hq]
      exact hpath
    obtain ⟨f', hf', hjoin⟩ := List.mem_map.mp hpath'
    have hf'L : f' ∈ L := mem_sortStrings.mp (List.mem_filter.mp hf').1
    have heq : f' = fname :=
      osPathJoin_inj (hslash f' hf'L) (hslash fname hmem) hjoin
    have hcond := (List.mem_filter.mp hf').2
    rw [heq] at hcond
    rcases hbad with hb | hb <;> simp [hb] at hcond

/-- Witness for C2: `random.jpg` from the RGB fixture directory appears in
no group's rgb list. -/
theorem claim_C2_witness :
    matchTurbineId "random.jpg" = none ∧
    ∀ q g, (q, g) ∈ group_files_by_turbine_blade fsEx "rgbdir" "thermaldir" →
      osPathJoin "rgbdir" "random.jpg" ∉ g.rgb :=
  ⟨by decide,
    (claim_C2 fsEx "rgbdir" "thermaldir").2.1
      ["Turbine-2_A_PS_sequence_14.png", "Turbine-2_A_PS_sequence_13.jpg", "random.jpg"]
      "random.jpg" (by decide) (by decide) (Or.inr (by decide)) (by decide)⟩

/-- The number of positions of `s` at which `pat` occurs as a substring. -/
def countOcc (pat : List Char) : List Char → Nat
  | [] => 0
  | c :: rest => (if pat.isPrefixOf (c :: rest) then 1 else 0) + countOcc pat rest

/-- The document written by a fixture run: one processed group
(`Turbine-2_A`), a constant model report and an identity markdown
renderer. -/
def docEx : String :=
  process_turbine_data_to_html (fun _ _ _ => "ok") (fun s => s) fsEx "rgbdir" "thermaldir"

/-- The document written by a fixture run whose markdown renderer yields an
HTML fragment that itself contains an `<h2>` element (as `markdown` does
for a report line starting `## `). -/
def docEx2 : String :=
  process_turbine_data_to_html (fun _ _ _ => "## t") (fun _ => "<h2>t</h2>") fsEx
    "rgbdir" "thermaldir"

set_option maxRecDepth 40000

/-- Counterexample to C4 as stated: the fixture run processes exactly the
group `Turbine-2_A`, and the written document does contain an `<h2>`
element, but no `<h2>` heading whose content is the blade identifier (the
heading the code writes is `Report for Turbine-2_A`); moreover a run of
one processed group whose rendered report itself contains `<h2>` yields a
document with two occurrences of `<h2>`, not one. -/
theorem claim_C4_counterexample :
    keys (group_files_by_turbine_blade fsEx "rgbdir" "thermaldir") = ["Turbine-2_A"] ∧
    0 < countOcc "<h2>".data docEx.data ∧
    countOcc "<h2>Turbine-2_A</h2>".data docEx.data = 0 ∧
    0 < countOcc "<h2>Report for Turbine-2_A</h2>".data docEx.data ∧
    (group_files_by_turbine_blade fsEx "rgbdir" "thermaldir").length = 1 ∧
    countOcc "<h2>".data docEx2.data = 2 := by
  refine ⟨by decide, by decide, by decide, by decide, by decide, by decide⟩

/-- Claim C4, amended: the written document is the fixed boilerplate head,
then the newline-join of exactly one section per group of the mapping in
iteration order (every group of the mapping is processed), then the fixed
tail; each section is an `<h2>` heading reading `Report for <identifier>`
immediately followed by a `<div>` containing the HTML rendering of that
group's report text. -/
theorem claim_C4 (report : List String → List String → String → String)
    (md : String → String) (fs : FileSystem) (d1 d2 : String) :
    process_turbine_data_to_html report md fs d1 d2 =
      html_head ++ String.intercalate "\n"
        ((group_files_by_turbine_blade fs d1 d2).map
          (fun pr => section_html pr.1 (md (report pr.2.rgb pr.2.thermal pr.1)))) ++
        html_tail ∧
    ((group_files_by_turbine_blade fs d1 d2).map
      (fun pr => section_html pr.1 (md (report pr.2.rgb pr.2.thermal pr.1)))).length =
      (group_files_by_turbine_blade fs d1 d2).length := by
  constructor
  · show html_head ++ String.intercalate "\n"
        (html_sections report md (group_files_by_turbine_blade fs d1 d2)) ++ html_tail = _
    rw [html_sections_of_good report md (goodGroups_group_files fs d1 d2)]
  · exact List.length_map _ _

end QwenReport
